import Mathlib

/-!
# Verification of the `lowher-case` text transformer

A shallow embedding of `lowher-case.py`, which lowercases prose while
protecting code spans and selected tokens.  Strings are modelled as
`List Char`; Python's ASCII case functions (`str.lower`, `str.isupper`)
are modelled on the ASCII fragment.  The spaCy tokenizer used by
`process_text` is external to the repository, so it is modelled as an
explicit parameter producing tokens that each carry their text, their
trailing whitespace (spaCy's `whitespace_`) and their entity tag
(spaCy's `ent_type_`); spaCy guarantees that concatenating
`text_with_ws` over all tokens reproduces the input text.
-/

namespace Lowher

/-! ## ASCII character model (Python `str.lower` / `str.isupper`) -/

/-- The ASCII uppercase range, as used by Python's case predicates on ASCII text. -/
def asciiUpper (c : Char) : Bool := 65 ≤ c.toNat && c.toNat ≤ 90

/-- The ASCII lowercase range. -/
def asciiLowerP (c : Char) : Bool := 97 ≤ c.toNat && c.toNat ≤ 122

/-- ASCII cased characters (the cased characters of the ASCII fragment). -/
def asciiAlpha (c : Char) : Bool := asciiUpper c || asciiLowerP c

/-- Python's per-character lowercase on the ASCII fragment: shift `A..Z` by 32. -/
def lowerChar (c : Char) : Char :=
  if asciiUpper c then Char.ofNat (c.toNat + 32) else c

/-- Python `str.lower` (ASCII fragment): lowercase every character. -/
def pyLower (cs : List Char) : List Char := cs.map lowerChar

/-- Python `str.isupper`: at least one cased character, and no cased character
is lowercase. -/
def pyIsUpper (cs : List Char) : Bool :=
  cs.any asciiAlpha && cs.all (fun c => !asciiAlpha c || asciiUpper c)

/-- Whitespace characters (space, tab, carriage return, newline). -/
def wsChar (c : Char) : Bool := c = ' ' || c = '\t' || c = '\r' || c = '\n'

/-! ## The code-span extractor

`CODE_BLOCK_PATTERN = re.compile(r"(```[\s\S]*?```|`[^`]*`)")` and
`findall`: scanning left to right, at each backtick first try a
triple-backtick fence with non-greedy body (closed by the earliest
following triple backtick), then a single-backtick inline span whose
body may not contain a backtick; on failure advance one character. -/

/-- The backtick character. -/
def tick : Char := Char.ofNat 96

/-- Split `cs` at the first closing single backtick: `some (body, rest)` with
`cs = body ++ tick :: rest` and no backtick in `body`; `none` if `cs` has no
backtick.  This is how `[^`]*` followed by a closing backtick consumes input. -/
def splitAtTick : List Char → Option (List Char × List Char)
  | [] => none
  | c :: rest =>
    if c = tick then some ([], rest)
    else (splitAtTick rest).map fun p => (c :: p.1, p.2)

/-- Split `cs` at the first triple backtick: `some (body, rest)` with
`cs = body ++ tick :: tick :: tick :: rest` and no earlier triple backtick.
This is how the non-greedy `[\s\S]*?` followed by a closing fence consumes
input. -/
def splitAtFence : List Char → Option (List Char × List Char)
  | [] => none
  | c :: rest =>
    if (c :: rest).take 3 = [tick, tick, tick] then some ([], rest.drop 2)
    else (splitAtFence rest).map fun p => (c :: p.1, p.2)

/-- One fuel-indexed scanning pass of `CODE_BLOCK_PATTERN.findall`.  The fuel
only serves termination; `findAll` supplies `cs.length`, which is ample since
every recursive call strictly shrinks the text. -/
def findAllF : Nat → List Char → List (List Char)
  | 0, _ => []
  | _ + 1, [] => []
  | fuel + 1, c :: rest =>
    if c = tick then
      if rest.take 2 = [tick, tick] then
        match splitAtFence (rest.drop 2) with
        | some (body, rest2) =>
          (tick :: tick :: tick :: (body ++ [tick, tick, tick])) :: findAllF fuel rest2
        | none => [tick, tick] :: findAllF fuel (tick :: rest.drop 2)
      else
        match splitAtTick rest with
        | some (body, rest2) => (tick :: (body ++ [tick])) :: findAllF fuel rest2
        | none => findAllF fuel rest
    else findAllF fuel rest

/-- `CODE_BLOCK_PATTERN.findall(text)`: the list of matched code spans in
scanning order. -/
def findAll (cs : List Char) : List (List Char) := findAllF cs.length cs

/-! ## Python `str.replace`

`text.replace(old, new)` replaces every non-overlapping occurrence of `old`,
scanning left to right.  `skip` counts characters of a just-matched occurrence
still to be consumed.  The needle is never empty in this program (placeholders
and pattern matches have length at least two), and an empty needle is treated
as matching nowhere. -/

/-- Worker for `str.replace`. -/
def replAux (pat rep : List Char) : Nat → List Char → List Char
  | _, [] => []
  | skip + 1, _ :: rest => replAux pat rep skip rest
  | 0, c :: rest =>
    if pat.isPrefixOf (c :: rest) && !pat.isEmpty then
      rep ++ replAux pat rep (pat.length - 1) rest
    else c :: replAux pat rep 0 rest

/-- Python `text.replace(pat, rep)` (for the nonempty needles this program uses). -/
def replaceAll (text pat rep : List Char) : List Char := replAux pat rep 0 text

/-- Python `text.replace(pat, rep, 1)`: first occurrence only.  This is the
single-substitution semantics the specification describes; the program itself
uses `replaceAll`. -/
def replFirstAux (pat rep : List Char) : List Char → List Char
  | [] => []
  | c :: rest =>
    if pat.isPrefixOf (c :: rest) && !pat.isEmpty then
      rep ++ (c :: rest).drop pat.length
    else c :: replFirstAux pat rep rest

/-- First-occurrence-only replacement, at the same argument order as `replaceAll`. -/
def replaceFirst (text pat rep : List Char) : List Char := replFirstAux pat rep text

/-! ## Masking and unmasking (`mark_code_blocks` / `unmark_code_blocks`) -/

/-- The placeholder the masker generates for span number `i`:
`f"__CODE_BLOCK_{i}__"`. -/
def placeholderFor (i : Nat) : List Char :=
  "__CODE_BLOCK_".toList ++ Nat.toDigits 10 i ++ "__".toList

/-- The loop body of `mark_code_blocks`: for each `(placeholder, code_block)`
pair in discovery order, `text = text.replace(code_block, placeholder)`. -/
def maskSteps : List Char → List (List Char × List Char) → List Char
  | text, [] => text
  | text, (ph, cb) :: rest => maskSteps (replaceAll text cb ph) rest

/-- `mark_code_blocks(text)`: find the code spans, generate one placeholder per
span, substitute each span's literal by its placeholder in discovery order, and
return the masked text together with the placeholder and span lists. -/
def mark_code_blocks (text : List Char) :
    List Char × List (List Char) × List (List Char) :=
  let code_blocks := findAll text
  let placeholders := (List.range code_blocks.length).map placeholderFor
  (maskSteps text (placeholders.zip code_blocks), placeholders, code_blocks)

/-- The loop body of `unmark_code_blocks`: for each pair in the same order,
`text = text.replace(placeholder, code_block)`. -/
def unmarkSteps : List Char → List (List Char × List Char) → List Char
  | text, [] => text
  | text, (ph, cb) :: rest => unmarkSteps (replaceAll text ph cb) rest

/-- `unmark_code_blocks(text, placeholders, code_blocks)`. -/
def unmark_code_blocks (text : List Char)
    (placeholders code_blocks : List (List Char)) : List Char :=
  unmarkSteps text (placeholders.zip code_blocks)

/-- The masker the specification describes (first remaining occurrence only),
for comparison with `mark_code_blocks`: identical except that every
substitution uses `replaceFirst`. -/
def maskStepsSpec : List Char → List (List Char × List Char) → List Char
  | text, [] => text
  | text, (ph, cb) :: rest => maskStepsSpec (replaceFirst text cb ph) rest

/-- The spec's single-substitution variant of `mark_code_blocks` (masked text
component only). -/
def markSpecFirstOnly (text : List Char) : List Char :=
  let code_blocks := findAll text
  let placeholders := (List.range code_blocks.length).map placeholderFor
  maskStepsSpec text (placeholders.zip code_blocks)

/-! ## The token-level case transformer (`process_text`)

spaCy's `nlp` is external to the repository; a tokenization is modelled as the
list of tokens it yields, each with `text`, trailing `whitespace_` and
`ent_type_`.  spaCy guarantees that concatenating `text_with_ws` over the
tokens reproduces the input (`Faithful`) and that `whitespace_` consists of
whitespace characters (`WsOk`). -/

/-- One spaCy token: its text, its trailing whitespace and its entity tag. -/
structure Token where
  text : List Char
  ws : List Char
  ent : String
deriving DecidableEq

/-- spaCy's `token.text_with_ws`. -/
def text_with_ws (t : Token) : List Char := t.text ++ t.ws

/-- Concatenation of `text_with_ws` over a token list; for a real tokenizer
this reproduces the tokenized text. -/
def joinWs : List Token → List Char
  | [] => []
  | t :: ts => t.text ++ t.ws ++ joinWs ts

/-- The per-token test of `process_text`:
`token.ent_type_ in ["PERSON", "ORG", "GPE"] or token.text.isupper()`. -/
def keepToken (t : Token) : Bool :=
  (["PERSON", "ORG", "GPE"].contains t.ent) || pyIsUpper t.text

/-- `process_text`, given the tokenization of its input: protected tokens are
written with their original text and trailing whitespace, all others as
`token.text.lower() + token.whitespace_`. -/
def process_text : List Token → List Char
  | [] => []
  | t :: ts =>
    (if keepToken t then t.text ++ t.ws else pyLower t.text ++ t.ws) ++ process_text ts

/-- A tokenizer is faithful when re-concatenating its tokens reproduces the
input text (spaCy's `text_with_ws` guarantee). -/
def Faithful (tokenize : List Char → List Token) : Prop :=
  ∀ cs, joinWs (tokenize cs) = cs

/-- A tokenizer's trailing-whitespace fields contain only whitespace
characters (spaCy's `whitespace_` guarantee). -/
def WsOk (tokenize : List Char → List Token) : Prop :=
  ∀ cs t, t ∈ tokenize cs → ∀ c ∈ t.ws, wsChar c = true

/-- The full transform `lowher(text)`, parameterized by the tokenizer that
models the spaCy pipeline: mask code spans, apply the token-level case
transform to the masked text, then restore the spans. -/
def lowher (tokenize : List Char → List Token) (text : List Char) : List Char :=
  let r := mark_code_blocks text
  unmark_code_blocks (process_text (tokenize r.1)) r.2.1 r.2.2

/-- A tokenizer that returns a fixed token list whatever its input; used to
instantiate theorems at concrete tokenizations (faithfulness at the one text
it is applied to is checked where it is used). -/
def constTok (toks : List Token) : List Char → List Token := fun _ => toks

/-- A trivially faithful tokenizer: the whole text as one token with no
trailing whitespace and no entity tag. -/
def wholeTok : List Char → List Token
  | [] => []
  | c :: cs => [⟨c :: cs, [], ""⟩]

/-! ## Character-level lemmas -/

theorem toNat_charOfNat {m : Nat} (h : m.isValidChar) : (Char.ofNat m).toNat = m := by
  rw [Char.ofNat, dif_pos h]; rfl

theorem char_toNat_inj {c d : Char} (h : c.toNat = d.toNat) : c = d :=
  Char.eq_of_val_eq (UInt32.ext h)

theorem lowerChar_toNat (c : Char) :
    (lowerChar c).toNat = if asciiUpper c then c.toNat + 32 else c.toNat := by
  unfold lowerChar
  split
  · next h =>
    have hb : 65 ≤ c.toNat ∧ c.toNat ≤ 90 := by
      simpa [asciiUpper, Bool.and_eq_true, decide_eq_true_iff] using h
    exact toNat_charOfNat (Or.inl (by omega))
  · rfl

theorem asciiUpper_iff (c : Char) : asciiUpper c = true ↔ 65 ≤ c.toNat ∧ c.toNat ≤ 90 := by
  simp [asciiUpper, Bool.and_eq_true, decide_eq_true_iff]

/-- Lowercasing moves a character out of the uppercase range. -/
theorem asciiUpper_lowerChar (c : Char) : asciiUpper (lowerChar c) = false := by
  cases h : asciiUpper c with
  | false => unfold lowerChar; rw [h, if_neg (by simp)]; exact h
  | true =>
    have hb := (asciiUpper_iff c).1 h
    have ht : (lowerChar c).toNat = c.toNat + 32 := by rw [lowerChar_toNat, if_pos h]
    have hn : ¬ (65 ≤ (lowerChar c).toNat ∧ (lowerChar c).toNat ≤ 90) := by omega
    cases h' : asciiUpper (lowerChar c) with
    | false => rfl
    | true => exact absurd ((asciiUpper_iff _).1 h') hn

/-- A character that is not ASCII-uppercase is fixed by `lowerChar`. -/
theorem lowerChar_eq_self {c : Char} (h : asciiUpper c = false) : lowerChar c = c := by
  unfold lowerChar; rw [h]; rfl

/-- Lowering can only produce a character in the ASCII lowercase range or leave
its argument unchanged; so a character outside `a..z` is hit only by itself. -/
theorem lowerChar_eq_of_not_low {c d : Char}
    (hd : ¬ (97 ≤ d.toNat ∧ d.toNat ≤ 122)) (h : lowerChar c = d) : c = d := by
  cases hc : asciiUpper c with
  | false => rwa [lowerChar_eq_self hc] at h
  | true =>
    exfalso
    have hb := (asciiUpper_iff c).1 hc
    have ht : (lowerChar c).toNat = c.toNat + 32 := by rw [lowerChar_toNat, if_pos hc]
    have hdn : d.toNat = c.toNat + 32 := by rw [← h, ht]
    exact hd (by omega)

/-! ## General lemmas about `str.replace` -/

theorem isPrefixOf_self_append (l r : List Char) : l.isPrefixOf (l ++ r) = true := by
  induction l with
  | nil => simp [List.isPrefixOf]
  | cons a l ih => simp [List.isPrefixOf_cons₂, ih]

theorem append_of_isPrefixOf : ∀ {l₁ l₂ : List Char},
    l₁.isPrefixOf l₂ = true → ∃ t, l₁ ++ t = l₂ := by
  intro l₁
  induction l₁ with
  | nil => exact fun {l₂} _ => ⟨l₂, rfl⟩
  | cons a as ih =>
    intro l₂ h
    cases l₂ with
    | nil => simp [List.isPrefixOf] at h
    | cons b bs =>
      rw [List.isPrefixOf_cons₂, Bool.and_eq_true, beq_iff_eq] at h
      obtain ⟨rfl, h2⟩ := h
      obtain ⟨t, ht⟩ := ih h2
      exact ⟨t, by rw [List.cons_append, ht]⟩

theorem replAux_skip (pat rep : List Char) (A rest : List Char) :
    replAux pat rep A.length (A ++ rest) = replAux pat rep 0 rest := by
  induction A with
  | nil => rfl
  | cons a A ih => simpa [replAux] using ih

theorem replaceAll_cons_ne {p : Char} (pt rep : List Char) {c : Char}
    (hc : c ≠ p) (rest : List Char) :
    replAux (p :: pt) rep 0 (c :: rest) = c :: replAux (p :: pt) rep 0 rest := by
  have hpre : (p :: pt).isPrefixOf (c :: rest) = false := by
    rw [List.isPrefixOf_cons₂]
    have hb : (p == c) = false := beq_eq_false_iff_ne.2 (Ne.symm hc)
    rw [hb, Bool.false_and]
  simp [replAux, hpre]

theorem replaceAll_append_left {p : Char} {pt rep A : List Char}
    (hA : ∀ c ∈ A, c ≠ p) (rest : List Char) :
    replAux (p :: pt) rep 0 (A ++ rest) = A ++ replAux (p :: pt) rep 0 rest := by
  induction A with
  | nil => rfl
  | cons a A ih =>
    have ha : a ≠ p := hA a (by simp)
    rw [List.cons_append, replaceAll_cons_ne _ _ ha,
      ih (fun c hc => hA c (by simp [hc]))]
    rfl

theorem replaceAll_match (p : Char) (pt rep rest : List Char) :
    replAux (p :: pt) rep 0 ((p :: pt) ++ rest) = rep ++ replAux (p :: pt) rep 0 rest := by
  have hpre : (p :: pt).isPrefixOf ((p :: pt) ++ rest) = true :=
    isPrefixOf_self_append _ _
  have hlen : (p :: pt).length - 1 = pt.length := by simp
  calc replAux (p :: pt) rep 0 ((p :: pt) ++ rest)
      = rep ++ replAux (p :: pt) rep ((p :: pt).length - 1) (pt ++ rest) := by
        simp [replAux, hpre]
    _ = rep ++ replAux (p :: pt) rep 0 rest := by rw [hlen, replAux_skip]

theorem replaceAll_no_head {p : Char} {pt rep text : List Char}
    (h : ∀ c ∈ text, c ≠ p) : replAux (p :: pt) rep 0 text = text := by
  simpa [replAux] using replaceAll_append_left h []

/-- Replacing a single protected slot: when the needle's leading character
occurs in neither surrounding segment, exactly the slot is rewritten. -/
theorem replaceAll_one_slot {p : Char} {pt rep A B : List Char}
    (hA : ∀ c ∈ A, c ≠ p) (hB : ∀ c ∈ B, c ≠ p) :
    replaceAll (A ++ (p :: pt) ++ B) (p :: pt) rep = A ++ rep ++ B := by
  unfold replaceAll
  rw [List.append_assoc, replaceAll_append_left hA, replaceAll_match,
    replaceAll_no_head hB, ← List.append_assoc]

/-- Replacing two protected slots holding the same literal: `str.replace`
rewrites both in one pass. -/
theorem replaceAll_two_slots {p : Char} {pt rep A B C : List Char}
    (hA : ∀ c ∈ A, c ≠ p) (hB : ∀ c ∈ B, c ≠ p) (hC : ∀ c ∈ C, c ≠ p) :
    replaceAll (A ++ (p :: pt) ++ B ++ (p :: pt) ++ C) (p :: pt) rep =
      A ++ rep ++ B ++ rep ++ C := by
  unfold replaceAll
  rw [List.append_assoc, List.append_assoc, List.append_assoc,
    replaceAll_append_left hA, replaceAll_match, replaceAll_append_left hB,
    replaceAll_match, replaceAll_no_head hC]
  simp [List.append_assoc]

/-- `replaceAll`-level form of `replaceAll_no_head`. -/
theorem replaceAll_no_occur {p : Char} {pt rep text : List Char}
    (h : ∀ c ∈ text, c ≠ p) : replaceAll text (p :: pt) rep = text :=
  replaceAll_no_head h

/-- Unfolding `mark_code_blocks` without its `let` bindings. -/
theorem mark_code_blocks_eq (text : List Char) :
    mark_code_blocks text =
      (maskSteps text (((List.range (findAll text).length).map placeholderFor).zip
          (findAll text)),
        (List.range (findAll text).length).map placeholderFor, findAll text) := rfl

/-- `str.replace` with a needle that does not occur leaves the text unchanged
(the skipped-span failure mode of the masker). -/
theorem replaceAll_of_absent {pat rep text : List Char} (h : ¬ pat <:+: text) :
    replaceAll text pat rep = text := by
  have hne : pat ≠ [] := by rintro rfl; exact h ⟨[], text, rfl⟩
  unfold replaceAll
  induction text with
  | nil => rfl
  | cons c rest ih =>
    cases hpre : pat.isPrefixOf (c :: rest) with
    | true =>
      obtain ⟨t, ht⟩ := append_of_isPrefixOf hpre
      exact absurd ⟨[], t, by simpa using ht⟩ h
    | false =>
      have : ¬ pat <:+: rest := fun hin => h (List.infix_cons hin)
      simp [replAux, hpre, ih this]

/-! ## General lemmas about the extractor -/

theorem findAllF_nil (f : Nat) : findAllF f [] = [] := by cases f <;> rfl

theorem findAllF_cons_ne {c : Char} (hc : c ≠ tick) (f : Nat) (rest : List Char) :
    findAllF (f + 1) (c :: rest) = findAllF f rest := by
  rw [findAllF]
  simp [hc]

theorem findAllF_no_tick (f : Nat) (cs : List Char) (h : tick ∉ cs) :
    findAllF f cs = [] := by
  induction f generalizing cs with
  | zero => rfl
  | succ f ih =>
    cases cs with
    | nil => rfl
    | cons c rest =>
      have hc : c ≠ tick := fun e => h (e ▸ List.mem_cons_self c rest)
      rw [findAllF_cons_ne hc]
      exact ih rest (fun hm => h (List.mem_cons_of_mem c hm))

/-- A tick-free text contains no code spans. -/
theorem findAll_of_no_tick {cs : List Char} (h : tick ∉ cs) : findAll cs = [] :=
  findAllF_no_tick _ _ h

theorem splitAtTick_append {w : List Char} (hw : tick ∉ w) (r : List Char) :
    splitAtTick (w ++ tick :: r) = some (w, r) := by
  induction w with
  | nil => simp [splitAtTick]
  | cons a w ih =>
    have ha : a ≠ tick := fun e => hw (e ▸ List.mem_cons_self a w)
    rw [List.cons_append, splitAtTick, if_neg ha,
      ih (fun hm => hw (List.mem_cons_of_mem a hm))]
    rfl

/-- A single-backtick span with tick-free body is matched whole by the
extractor, whatever characters (newlines included) the body holds. -/
theorem findAll_inline {w : List Char} (hw : tick ∉ w) :
    findAll (tick :: (w ++ [tick])) = [tick :: (w ++ [tick])] := by
  have hlen : (tick :: (w ++ [tick])).length = w.length + 1 + 1 := by simp
  have htake : ¬ (w ++ [tick]).take 2 = [tick, tick] := by
    cases w with
    | nil => simp
    | cons a w' =>
      have ha : a ≠ tick := fun e => hw (e ▸ List.mem_cons_self a w')
      simp [ha]
  have hsplit : splitAtTick (w ++ [tick]) = some (w, []) := splitAtTick_append hw []
  rw [findAll, hlen, findAllF]
  simp [htake, hsplit, findAllF_nil]

/-! ## General lemmas about the token transformer -/

theorem joinWs_append (a b : List Token) : joinWs (a ++ b) = joinWs a ++ joinWs b := by
  induction a with
  | nil => rfl
  | cons t ts ih => simp [joinWs, ih]

theorem process_text_append (a b : List Token) :
    process_text (a ++ b) = process_text a ++ process_text b := by
  induction a with
  | nil => rfl
  | cons t ts ih => simp [process_text, ih]

/-- Every character the token transformer emits is a character of the
tokenized text, or the lowercase image of one. -/
theorem process_text_chars {toks : List Token} :
    ∀ c ∈ process_text toks, c ∈ joinWs toks ∨ ∃ c' ∈ joinWs toks, c = lowerChar c' := by
  induction toks with
  | nil => simp [process_text]
  | cons t ts ih =>
    intro c hc
    rw [process_text, List.mem_append] at hc
    rcases hc with h | h
    · split at h
      · exact Or.inl (by
          rw [joinWs]
          rcases List.mem_append.1 h with h' | h' <;> simp [h'])
      · rcases List.mem_append.1 h with h' | h'
        · rcases List.mem_map.1 h' with ⟨c', hc', e⟩
          exact Or.inr ⟨c', by rw [joinWs]; simp [hc'], e.symm⟩
        · exact Or.inl (by rw [joinWs]; simp [h'])
    · rcases ih c h with h' | ⟨c', hc', e⟩
      · exact Or.inl (by rw [joinWs]; simp [h'])
      · exact Or.inr ⟨c', by rw [joinWs]; simp [hc'], e⟩

/-- A protected token contributes its text and whitespace unchanged. -/
theorem process_text_keep_cons {txt wsp : List Char} {e : String}
    (h : keepToken ⟨txt, wsp, e⟩ = true) (ts : List Token) :
    process_text (⟨txt, wsp, e⟩ :: ts) = txt ++ (wsp ++ process_text ts) := by
  rw [process_text, h]
  simp [List.append_assoc]

/-- Characters outside the ASCII lowercase range that are absent from the
tokenized text stay absent from the transformer's output (in this program:
the backtick and the underscore). -/
theorem process_text_keeps_out {toks : List Token} {d : Char}
    (hd : ¬ (97 ≤ d.toNat ∧ d.toNat ≤ 122))
    (h : ∀ c ∈ joinWs toks, c ≠ d) : ∀ c ∈ process_text toks, c ≠ d := by
  intro c hc
  rcases process_text_chars c hc with h' | ⟨c', hc', e⟩
  · exact h c h'
  · intro e'
    exact h c' hc' (lowerChar_eq_of_not_low hd (e ▸ e' : lowerChar c' = d))

/-! ## Placeholders are uppercase tokens -/

theorem asciiLowerP_iff (c : Char) : asciiLowerP c = true ↔ 97 ≤ c.toNat ∧ c.toNat ≤ 122 := by
  simp [asciiLowerP, Bool.and_eq_true, decide_eq_true_iff]

theorem asciiAlpha_eq_false_of_digit {c : Char}
    (h : 48 ≤ c.toNat ∧ c.toNat ≤ 57) : asciiAlpha c = false := by
  cases ha : asciiAlpha c with
  | false => rfl
  | true =>
    rcases Bool.or_eq_true_iff.1 (by rwa [asciiAlpha] at ha) with h' | h'
    · have := (asciiUpper_iff c).1 h'; omega
    · have := (asciiLowerP_iff c).1 h'; omega

theorem digitChar_range {m : Nat} (h : m < 10) :
    48 ≤ (Nat.digitChar m).toNat ∧ (Nat.digitChar m).toNat ≤ 57 := by
  interval_cases m <;> decide

theorem toDigitsCore_chars (P : Char → Prop) (hP : ∀ m, m < 10 → P (Nat.digitChar m)) :
    ∀ (f n : Nat) (ds : List Char), (∀ c ∈ ds, P c) →
      ∀ c ∈ Nat.toDigitsCore 10 f n ds, P c := by
  intro f
  induction f with
  | zero => intro n ds hds; simpa [Nat.toDigitsCore] using hds
  | succ f ih =>
    intro n ds hds c hc
    rw [Nat.toDigitsCore] at hc
    split at hc
    · rcases List.mem_cons.1 hc with rfl | h
      · exact hP _ (Nat.mod_lt _ (by norm_num))
      · exact hds _ h
    · refine ih _ _ ?_ c hc
      intro d hd
      rcases List.mem_cons.1 hd with rfl | h
      · exact hP _ (Nat.mod_lt _ (by norm_num))
      · exact hds _ h

/-- Every character of a decimal numeral is a digit. -/
theorem toDigits_digits (i : Nat) :
    ∀ c ∈ Nat.toDigits 10 i, 48 ≤ c.toNat ∧ c.toNat ≤ 57 :=
  toDigitsCore_chars _ (fun _ hm => digitChar_range hm) _ _ _ (by simp)

/-- Every placeholder satisfies Python's `isupper`: its letters are all
uppercase and it has at least one letter. -/
theorem pyIsUpper_placeholderFor (i : Nat) : pyIsUpper (placeholderFor i) = true := by
  unfold pyIsUpper placeholderFor
  rw [Bool.and_eq_true]
  constructor
  · rw [List.any_append, List.any_append]
    have h : ("__CODE_BLOCK_".toList).any asciiAlpha = true := by decide
    rw [h, Bool.true_or, Bool.true_or]
  · rw [List.all_append, List.all_append, Bool.and_eq_true, Bool.and_eq_true]
    refine ⟨⟨by decide, ?_⟩, by decide⟩
    rw [List.all_eq_true]
    intro c hc
    rw [asciiAlpha_eq_false_of_digit (toDigits_digits i c hc)]
    rfl

/-! ## Claim C6 -/

/-- C6: in token-classification mode, each token of the masked text whose
entity tag is PERSON, ORG or GPE, or whose raw text is fully uppercase,
contributes its unchanged text followed by its original trailing whitespace;
every other token contributes its lowercased text followed by its original
trailing whitespace; the output is exactly the concatenation of these pieces
in token order. -/
theorem C6_token_rule (tl : List Token) (t : Token) (tr : List Token) :
    process_text (tl ++ t :: tr) =
      process_text tl ++
        (if (["PERSON", "ORG", "GPE"].contains t.ent) || pyIsUpper t.text
          then t.text ++ t.ws else pyLower t.text ++ t.ws) ++
        process_text tr := by
  rw [process_text_append]
  simp [process_text, keepToken, List.append_assoc]

/-! ## Claim C7 -/

/-- C7: when a span's literal text does not occur in the current partially
masked text, its substitution step changes nothing and masking proceeds with
the remaining spans; no error is possible since every function of the
embedding is total, mirroring that `str.replace` silently returns its input
when the needle is absent. -/
theorem C7_skip_missing_span (text ph cb : List Char)
    (rest : List (List Char × List Char)) (h : ¬ cb <:+: text) :
    maskSteps text ((ph, cb) :: rest) = maskSteps text rest := by
  rw [maskSteps, replaceAll_of_absent h]

theorem C7_skip_missing_span_witness :
    ¬ ("`x`".toList <:+: "abc".toList) ∧
      maskSteps "abc".toList [("__CODE_BLOCK_0__".toList, "`x`".toList)] =
        "abc".toList :=
  ⟨by decide, C7_skip_missing_span _ _ _ [] (by decide)⟩

/-! ## Claim C4 -/

/-- C4 counterexample: blind-lowercasing the first placeholder changes it,
since `__CODE_BLOCK_0__` contains uppercase letters; placeholders are not
case-stable, contradicting the claim that lowercasing them is a no-op. -/
theorem C4_counterexample :
    pyLower (placeholderFor 0) = "__code_block_0__".toList ∧
      pyLower (placeholderFor 0) ≠ placeholderFor 0 := by
  exact ⟨by decide, by decide⟩

/-- C4 (amended): placeholders are not case-stable under a blind lowercase
pass, but every placeholder is fully uppercase in Python's `isupper` sense, so
the token-classification transformer's uppercase rule reproduces a placeholder
token textually unchanged (whatever its entity tag), followed by its trailing
whitespace. -/
theorem C4_amended_placeholder_uppercase (i : Nat) (w : List Char) (e : String)
    (rest : List Token) :
    pyIsUpper (placeholderFor i) = true ∧
      process_text (⟨placeholderFor i, w, e⟩ :: rest) =
        placeholderFor i ++ w ++ process_text rest := by
  refine ⟨pyIsUpper_placeholderFor i, ?_⟩
  have hk : keepToken ⟨placeholderFor i, w, e⟩ = true := by
    rw [keepToken]
    show (_ || pyIsUpper (placeholderFor i)) = true
    rw [pyIsUpper_placeholderFor i, Bool.or_true]
  rw [process_text, hk]
  simp [List.append_assoc]

/-! ## Claim C5 -/

/-- C5 counterexample: the extractor matches the single-backtick span
"`a\nb`", which contains a newline and is not a triple-backtick fence, so the
inline pattern does match spans containing newlines. -/
theorem C5_counterexample :
    findAll "`a\nb`".toList = ["`a\nb`".toList] ∧
      '\n' ∈ "`a\nb`".toList ∧
      ¬ ([tick, tick, tick] <+: "`a\nb`".toList) := by
  exact ⟨by decide, by decide, by decide⟩

/-- C5 (amended): the inline pattern's character class excludes only the
backtick itself, so an inline span's body may contain any other characters,
newlines included: every backtick-delimited, backtick-free body is matched
whole as one inline span. -/
theorem C5_amended_inline_any_body (w : List Char) (hw : tick ∉ w) :
    findAll (tick :: (w ++ [tick])) = [tick :: (w ++ [tick])] :=
  findAll_inline hw

theorem C5_amended_inline_any_body_witness :
    tick ∉ "a\nb".toList ∧
      findAll (tick :: ("a\nb".toList ++ [tick])) =
        [tick :: ("a\nb".toList ++ [tick])] :=
  ⟨by decide, C5_amended_inline_any_body _ (by decide)⟩

/-! ## Claim C1 -/

/-- C1 counterexample: on "`A` x `A`" the first masking step rewrites both
occurrences of the literal "`A`" to `__CODE_BLOCK_0__` at once, whereas the
claimed first-remaining-occurrence semantics would leave the second occurrence
for the second span's placeholder; the two maskers disagree, so the code does
not implement single-substitution masking. -/
theorem C1_counterexample :
    (mark_code_blocks "`A` x `A`".toList).1 =
        "__CODE_BLOCK_0__ x __CODE_BLOCK_0__".toList ∧
      markSpecFirstOnly "`A` x `A`".toList =
        "__CODE_BLOCK_0__ x __CODE_BLOCK_1__".toList ∧
      (mark_code_blocks "`A` x `A`".toList).1 ≠
        markSpecFirstOnly "`A` x `A`".toList := by
  exact ⟨by decide, by decide, by decide⟩

/-- C1 (amended): each masking step replaces every remaining occurrence of its
span's literal (Python `str.replace` replace-all semantics): with a duplicated
inline literal, one step maps both occurrences to the first span's
placeholder, and the duplicate span's own step is a no-op, its placeholder
appearing nowhere in the masked text. -/
theorem C1_amended_replace_all (A B C w : List Char)
    (hA : ∀ c ∈ A, c ≠ tick) (hB : ∀ c ∈ B, c ≠ tick) (hC : ∀ c ∈ C, c ≠ tick)
    (hfind : findAll (A ++ (tick :: (w ++ [tick])) ++ B ++ (tick :: (w ++ [tick])) ++ C)
        = [tick :: (w ++ [tick]), tick :: (w ++ [tick])]) :
    mark_code_blocks (A ++ (tick :: (w ++ [tick])) ++ B ++ (tick :: (w ++ [tick])) ++ C) =
      (A ++ placeholderFor 0 ++ B ++ placeholderFor 0 ++ C,
        [placeholderFor 0, placeholderFor 1],
        [tick :: (w ++ [tick]), tick :: (w ++ [tick])]) := by
  rw [mark_code_blocks_eq, hfind]
  show (maskSteps _ [(placeholderFor 0, _), (placeholderFor 1, _)],
    [placeholderFor 0, placeholderFor 1], _) = _
  have hmask : ∀ c ∈ A ++ placeholderFor 0 ++ B ++ placeholderFor 0 ++ C, c ≠ tick := by
    intro c hc
    have hph : ∀ c ∈ placeholderFor 0, c ≠ tick := by decide
    simp only [List.mem_append] at hc
    rcases hc with (((h | h) | h) | h) | h
    · exact hA c h
    · exact hph c h
    · exact hB c h
    · exact hph c h
    · exact hC c h
  rw [maskSteps, replaceAll_two_slots hA hB hC, maskSteps,
    replaceAll_no_occur hmask, maskSteps]

theorem C1_amended_replace_all_witness :
    findAll ("x ".toList ++ (tick :: ("q".toList ++ [tick])) ++ " and ".toList ++
          (tick :: ("q".toList ++ [tick])) ++ "!".toList) =
        [tick :: ("q".toList ++ [tick]), tick :: ("q".toList ++ [tick])] ∧
      mark_code_blocks ("x ".toList ++ (tick :: ("q".toList ++ [tick])) ++ " and ".toList ++
          (tick :: ("q".toList ++ [tick])) ++ "!".toList) =
        ("x ".toList ++ placeholderFor 0 ++ " and ".toList ++ placeholderFor 0 ++ "!".toList,
          [placeholderFor 0, placeholderFor 1],
          [tick :: ("q".toList ++ [tick]), tick :: ("q".toList ++ [tick])]) := by
  refine ⟨by decide, ?_⟩
  exact C1_amended_replace_all "x ".toList " and ".toList "!".toList "q".toList
    (by decide) (by decide) (by decide) (by decide)

/-! ## Claim C9 -/

/-- Unfolding `lowher`. -/
theorem lowher_eq (tokenize : List Char → List Token) (text : List Char) :
    lowher tokenize text =
      unmark_code_blocks (process_text (tokenize (mark_code_blocks text).1))
        (mark_code_blocks text).2.1 (mark_code_blocks text).2.2 := rfl

/-- Unmasking a single mapping pair is one `str.replace`. -/
theorem unmark_code_blocks_single (text ph cb : List Char) :
    unmark_code_blocks text [ph] [cb] = replaceAll text ph cb := rfl

/-- C9 counterexample: the input `__CODE_BLOCK_0`a`` has pairwise-distinct
span literals (there is a single span, "`a`") and contains no full placeholder
`__CODE_BLOCK_<i>__`, yet mask-then-unmask is not the identity: masking yields
`__CODE_BLOCK_0__CODE_BLOCK_0__`, in which a spurious leftmost occurrence of
the placeholder straddles the input text and the substituted span, so
unmasking rewrites the wrong sixteen characters. -/
theorem C9_counterexample :
    mark_code_blocks "__CODE_BLOCK_0`a`".toList =
        ("__CODE_BLOCK_0__CODE_BLOCK_0__".toList, [placeholderFor 0], ["`a`".toList]) ∧
      ¬ (placeholderFor 0 <:+: "__CODE_BLOCK_0`a`".toList) ∧
      unmark_code_blocks "__CODE_BLOCK_0__CODE_BLOCK_0__".toList
          [placeholderFor 0] ["`a`".toList] = "`a`CODE_BLOCK_0__".toList ∧
      "`a`CODE_BLOCK_0__".toList ≠ "__CODE_BLOCK_0`a`".toList := by
  exact ⟨by decide, by decide, by decide, by decide⟩

/-- C9 (amended): mask-then-unmask restores the input exactly when, beyond the
claim's hypotheses, no fragment of a placeholder can assemble around a
substitution: for a text whose single code span is surrounded by text free of
backticks and underscores, unmasking the masked text yields the input
unchanged. -/
theorem C9_amended_roundtrip (A ct B : List Char)
    (hA : ∀ c ∈ A, c ≠ tick ∧ c ≠ '_') (hB : ∀ c ∈ B, c ≠ tick ∧ c ≠ '_')
    (hfind : findAll (A ++ (tick :: ct) ++ B) = [tick :: ct]) :
    unmark_code_blocks (mark_code_blocks (A ++ (tick :: ct) ++ B)).1
        (mark_code_blocks (A ++ (tick :: ct) ++ B)).2.1
        (mark_code_blocks (A ++ (tick :: ct) ++ B)).2.2
      = A ++ (tick :: ct) ++ B := by
  rw [mark_code_blocks_eq, hfind]
  show unmark_code_blocks (maskSteps _ [(placeholderFor 0, tick :: ct)])
    [placeholderFor 0] [tick :: ct] = _
  have hmask : maskSteps (A ++ (tick :: ct) ++ B) [(placeholderFor 0, tick :: ct)] =
      A ++ placeholderFor 0 ++ B := by
    rw [maskSteps, replaceAll_one_slot (fun c hc => (hA c hc).1) (fun c hc => (hB c hc).1),
      maskSteps]
  rw [hmask, unmark_code_blocks_single]
  have hph : placeholderFor 0 = '_' :: "_CODE_BLOCK_0__".toList := by decide
  rw [hph]
  exact replaceAll_one_slot (fun c hc => (hA c hc).2) (fun c hc => (hB c hc).2)

theorem C9_amended_roundtrip_witness :
    findAll ("see ".toList ++ (tick :: "a_b`".toList) ++ " now".toList) =
        [tick :: "a_b`".toList] ∧
      unmark_code_blocks
          (mark_code_blocks ("see ".toList ++ (tick :: "a_b`".toList) ++ " now".toList)).1
          (mark_code_blocks ("see ".toList ++ (tick :: "a_b`".toList) ++ " now".toList)).2.1
          (mark_code_blocks ("see ".toList ++ (tick :: "a_b`".toList) ++ " now".toList)).2.2
        = "see ".toList ++ (tick :: "a_b`".toList) ++ " now".toList := by
  refine ⟨by decide, ?_⟩
  exact C9_amended_roundtrip "see ".toList "a_b`".toList " now".toList
    (by decide) (by decide) (by decide)

/-! ## Claim C2 -/

/-- C2 counterexample: on the input `__CODE_BLOCK_0__ `A`` the placeholder the
masker generates is literally a prefix of the input (so placeholders do
collide with text the input can contain), and with a faithful tokenization of
the masked text the full transform returns "`A` `A`": the input's prefix
`__CODE_BLOCK_0__ ` has been replaced by "`A` ", which is neither untouched
protected-span text at its original position nor the lowercasing of any
unprotected token, and the single protected span's literal now occurs twice. -/
theorem C2_counterexample :
    (mark_code_blocks "__CODE_BLOCK_0__ `A`".toList).2.1 = [placeholderFor 0] ∧
      "__CODE_BLOCK_0__ `A`".toList = placeholderFor 0 ++ " `A`".toList ∧
      joinWs (constTok [⟨placeholderFor 0, " ".toList, ""⟩, ⟨placeholderFor 0, [], ""⟩]
          ((mark_code_blocks "__CODE_BLOCK_0__ `A`".toList).1)) =
        (mark_code_blocks "__CODE_BLOCK_0__ `A`".toList).1 ∧
      lowher (constTok [⟨placeholderFor 0, " ".toList, ""⟩, ⟨placeholderFor 0, [], ""⟩])
          "__CODE_BLOCK_0__ `A`".toList = "`A` `A`".toList := by
  exact ⟨by decide, by decide, by decide, by decide⟩

/-- C2 (amended): for an input whose single code span is surrounded by text
free of backticks and underscores, whose span body contains no underscore, and
whose masked text the tokenizer splits faithfully around the placeholder
token, the invariant holds: the output is the untouched span flanked by the
token transform of the surrounding text, every flanking character is a
character of the corresponding side of the input or the lowercase image of
one, and no placeholder occurs in the output. -/
theorem C2_amended_invariant (tokenize : List Char → List Token)
    (pre ct post : List Char) (tl : List Token) (w : List Char) (e : String)
    (tr : List Token)
    (hpre : ∀ c ∈ pre, c ≠ tick ∧ c ≠ '_')
    (hpost : ∀ c ∈ post, c ≠ tick ∧ c ≠ '_')
    (hct : ∀ c ∈ ct, c ≠ '_')
    (hfind : findAll (pre ++ (tick :: ct) ++ post) = [tick :: ct])
    (htok : tokenize (pre ++ placeholderFor 0 ++ post) =
      tl ++ ⟨placeholderFor 0, w, e⟩ :: tr)
    (htl : joinWs tl = pre) (htr : w ++ joinWs tr = post) :
    lowher tokenize (pre ++ (tick :: ct) ++ post) =
        process_text tl ++ (tick :: ct) ++ (w ++ process_text tr) ∧
      (∀ c ∈ process_text tl, c ∈ pre ∨ ∃ c' ∈ pre, c = lowerChar c') ∧
      (∀ c ∈ w ++ process_text tr, c ∈ post ∨ ∃ c' ∈ post, c = lowerChar c') ∧
      ¬ (placeholderFor 0 <:+:
          process_text tl ++ (tick :: ct) ++ (w ++ process_text tr)) := by
  have hwpost : ∀ c ∈ w, c ∈ post := fun c hc => htr ▸ List.mem_append_left _ hc
  have htrpost : ∀ c ∈ joinWs tr, c ∈ post := fun c hc => htr ▸ List.mem_append_right _ hc
  have hnotlow : ¬ (97 ≤ ('_' : Char).toNat ∧ ('_' : Char).toNat ≤ 122) := by decide
  have hP : ∀ c ∈ process_text tl, c ≠ '_' :=
    process_text_keeps_out hnotlow (fun c hc => (hpre c (htl ▸ hc)).2)
  have hT : ∀ c ∈ process_text tr, c ≠ '_' :=
    process_text_keeps_out hnotlow (fun c hc => (hpost c (htrpost c hc)).2)
  have hwT : ∀ c ∈ w ++ process_text tr, c ≠ '_' := by
    intro c hc
    rcases List.mem_append.1 hc with h | h
    · exact (hpost c (hwpost c h)).2
    · exact hT c h
  have hmain : lowher tokenize (pre ++ (tick :: ct) ++ post) =
      process_text tl ++ (tick :: ct) ++ (w ++ process_text tr) := by
    rw [lowher_eq, mark_code_blocks_eq, hfind]
    show unmark_code_blocks (process_text (tokenize
      (maskSteps _ [(placeholderFor 0, tick :: ct)]))) [placeholderFor 0] [tick :: ct] = _
    have hmask : maskSteps (pre ++ (tick :: ct) ++ post)
        [(placeholderFor 0, tick :: ct)] = pre ++ placeholderFor 0 ++ post := by
      rw [maskSteps,
        replaceAll_one_slot (fun c hc => (hpre c hc).1) (fun c hc => (hpost c hc).1),
        maskSteps]
    rw [hmask, htok, process_text_append, process_text]
    have hk : keepToken ⟨placeholderFor 0, w, e⟩ = true := by
      rw [keepToken]
      show (_ || pyIsUpper (placeholderFor 0)) = true
      rw [pyIsUpper_placeholderFor 0, Bool.or_true]
    rw [hk]
    show unmark_code_blocks
      (process_text tl ++ (placeholderFor 0 ++ w ++ process_text tr)) _ _ = _
    rw [unmark_code_blocks_single]
    have hre : process_text tl ++ (placeholderFor 0 ++ w ++ process_text tr) =
        process_text tl ++ ('_' :: "_CODE_BLOCK_0__".toList) ++ (w ++ process_text tr) := by
      rw [show placeholderFor 0 = '_' :: "_CODE_BLOCK_0__".toList from by decide]
      simp [List.append_assoc]
    rw [hre, show placeholderFor 0 = '_' :: "_CODE_BLOCK_0__".toList from by decide,
      replaceAll_one_slot hP hwT]
  refine ⟨hmain, ?_, ?_, ?_⟩
  · intro c hc
    rcases process_text_chars c hc with h | ⟨c', hc', e'⟩
    · exact Or.inl (htl ▸ h)
    · exact Or.inr ⟨c', htl ▸ hc', e'⟩
  · intro c hc
    rcases List.mem_append.1 hc with h | h
    · exact Or.inl (hwpost c h)
    · rcases process_text_chars c h with h' | ⟨c', hc', e'⟩
      · exact Or.inl (htrpost c h')
      · exact Or.inr ⟨c', htrpost c' hc', e'⟩
  · intro hinf
    have husc : ('_' : Char) ∈ placeholderFor 0 := by decide
    have hout := hinf.subset husc
    simp only [List.mem_append] at hout
    rcases hout with (h | h) | h
    · exact hP _ h rfl
    · rcases List.mem_cons.1 h with h' | h'
      · exact absurd h'.symm (by decide : ('_' : Char) ≠ tick).symm
      · exact hct _ h' rfl
    · rcases h with h | h
      · exact (hpost _ (hwpost _ h)).2 rfl
      · exact hT _ h rfl

theorem C2_amended_invariant_witness :
    lowher (constTok [⟨"Hello".toList, " ".toList, ""⟩,
        ⟨placeholderFor 0, " ".toList, ""⟩, ⟨"ok".toList, [], ""⟩])
        ("Hello ".toList ++ (tick :: "Wow`".toList) ++ " ok".toList) =
      "hello ".toList ++ (tick :: "Wow`".toList) ++ " ok".toList := by
  have h := C2_amended_invariant
    (constTok [⟨"Hello".toList, " ".toList, ""⟩,
      ⟨placeholderFor 0, " ".toList, ""⟩, ⟨"ok".toList, [], ""⟩])
    "Hello ".toList "Wow`".toList " ok".toList
    [⟨"Hello".toList, " ".toList, ""⟩] " ".toList "" [⟨"ok".toList, [], ""⟩]
    (by decide) (by decide) (by decide) (by decide) rfl (by decide) (by decide)
  rw [h.1]
  decide

/-! ## Claim C3 -/

/-- C3 counterexample: the input "`A` ```Bb `A` Cc```" contains a
triple-backtick fenced block, but because the earlier inline span's literal
"`A`" also occurs inside the fence, the replace-all masking step rewrites the
fence's interior, the fence's own substitution is skipped, and the token pass
then lowercases the fence body: with a faithful tokenization the output is
"`A` ```bb `A` cc```", in which the fence's content `Bb `A` Cc` appears
nowhere. -/
theorem C3_counterexample :
    findAll "`A` ```Bb `A` Cc```".toList =
        ["`A`".toList, "```Bb `A` Cc```".toList] ∧
      joinWs (constTok [⟨placeholderFor 0, " ".toList, ""⟩, ⟨"```".toList, [], ""⟩,
          ⟨"Bb".toList, " ".toList, ""⟩, ⟨placeholderFor 0, " ".toList, ""⟩,
          ⟨"Cc".toList, [], ""⟩, ⟨"```".toList, [], ""⟩]
          ((mark_code_blocks "`A` ```Bb `A` Cc```".toList).1)) =
        (mark_code_blocks "`A` ```Bb `A` Cc```".toList).1 ∧
      lowher (constTok [⟨placeholderFor 0, " ".toList, ""⟩, ⟨"```".toList, [], ""⟩,
          ⟨"Bb".toList, " ".toList, ""⟩, ⟨placeholderFor 0, " ".toList, ""⟩,
          ⟨"Cc".toList, [], ""⟩, ⟨"```".toList, [], ""⟩])
          "`A` ```Bb `A` Cc```".toList = "`A` ```bb `A` cc```".toList ∧
      ¬ ("Bb `A` Cc".toList <:+: "`A` ```bb `A` cc```".toList) := by
  exact ⟨by decide, by decide, by decide, by decide⟩

/-- C3 (amended): for an input whose only code span is the fenced block,
surrounded by text free of backticks and underscores, and whose masked text
the tokenizer splits faithfully around the placeholder token, the block —
body, casing, indentation and newlines included — appears byte-identical in
the output, between the token transforms of the surrounding text. -/
theorem C3_amended_fence_preserved (tokenize : List Char → List Token)
    (pre body post : List Char) (tl : List Token) (w : List Char) (e : String)
    (tr : List Token)
    (hpre : ∀ c ∈ pre, c ≠ tick ∧ c ≠ '_')
    (hpost : ∀ c ∈ post, c ≠ tick ∧ c ≠ '_')
    (hfind : findAll (pre ++ (tick :: tick :: tick :: (body ++ [tick, tick, tick])) ++ post)
        = [tick :: tick :: tick :: (body ++ [tick, tick, tick])])
    (htok : tokenize (pre ++ placeholderFor 0 ++ post) =
      tl ++ ⟨placeholderFor 0, w, e⟩ :: tr)
    (htl : joinWs tl = pre) (htr : w ++ joinWs tr = post) :
    lowher tokenize (pre ++ (tick :: tick :: tick :: (body ++ [tick, tick, tick])) ++ post) =
      process_text tl ++ (tick :: tick :: tick :: (body ++ [tick, tick, tick])) ++
        (w ++ process_text tr) := by
  have hwpost : ∀ c ∈ w, c ∈ post := fun c hc => htr ▸ List.mem_append_left _ hc
  have htrpost : ∀ c ∈ joinWs tr, c ∈ post := fun c hc => htr ▸ List.mem_append_right _ hc
  have hnotlow : ¬ (97 ≤ ('_' : Char).toNat ∧ ('_' : Char).toNat ≤ 122) := by decide
  have hP : ∀ c ∈ process_text tl, c ≠ '_' :=
    process_text_keeps_out hnotlow (fun c hc => (hpre c (htl ▸ hc)).2)
  have hT : ∀ c ∈ process_text tr, c ≠ '_' :=
    process_text_keeps_out hnotlow (fun c hc => (hpost c (htrpost c hc)).2)
  have hwT : ∀ c ∈ w ++ process_text tr, c ≠ '_' := by
    intro c hc
    rcases List.mem_append.1 hc with h | h
    · exact (hpost c (hwpost c h)).2
    · exact hT c h
  rw [lowher_eq, mark_code_blocks_eq, hfind]
  show unmark_code_blocks (process_text (tokenize
    (maskSteps _ [(placeholderFor 0, _)]))) [placeholderFor 0] [_] = _
  have hmask : maskSteps
      (pre ++ (tick :: tick :: tick :: (body ++ [tick, tick, tick])) ++ post)
      [(placeholderFor 0, tick :: tick :: tick :: (body ++ [tick, tick, tick]))] =
      pre ++ placeholderFor 0 ++ post := by
    rw [maskSteps,
      replaceAll_one_slot (fun c hc => (hpre c hc).1) (fun c hc => (hpost c hc).1),
      maskSteps]
  rw [hmask, htok, process_text_append, process_text]
  have hk : keepToken ⟨placeholderFor 0, w, e⟩ = true := by
    rw [keepToken]
    show (_ || pyIsUpper (placeholderFor 0)) = true
    rw [pyIsUpper_placeholderFor 0, Bool.or_true]
  rw [hk]
  show unmark_code_blocks
    (process_text tl ++ (placeholderFor 0 ++ w ++ process_text tr)) _ _ = _
  rw [unmark_code_blocks_single]
  have hre : process_text tl ++ (placeholderFor 0 ++ w ++ process_text tr) =
      process_text tl ++ ('_' :: "_CODE_BLOCK_0__".toList) ++ (w ++ process_text tr) := by
    rw [show placeholderFor 0 = '_' :: "_CODE_BLOCK_0__".toList from by decide]
    simp [List.append_assoc]
  rw [hre, show placeholderFor 0 = '_' :: "_CODE_BLOCK_0__".toList from by decide,
    replaceAll_one_slot hP hwT]

theorem C3_amended_fence_preserved_witness :
    lowher (constTok [⟨"Doc:".toList, " ".toList, ""⟩,
        ⟨placeholderFor 0, " ".toList, ""⟩, ⟨"end".toList, [], ""⟩])
        ("Doc: ".toList ++
          (tick :: tick :: tick :: ("line1\n  Line2".toList ++ [tick, tick, tick])) ++
          " end".toList) =
      "doc: ".toList ++
        (tick :: tick :: tick :: ("line1\n  Line2".toList ++ [tick, tick, tick])) ++
        " end".toList := by
  have h := C3_amended_fence_preserved
    (constTok [⟨"Doc:".toList, " ".toList, ""⟩,
      ⟨placeholderFor 0, " ".toList, ""⟩, ⟨"end".toList, [], ""⟩])
    "Doc: ".toList "line1\n  Line2".toList " end".toList
    [⟨"Doc:".toList, " ".toList, ""⟩] " ".toList "" [⟨"end".toList, [], ""⟩]
    (by decide) (by decide) (by decide) rfl (by decide) (by decide)
  rw [h]
  decide

/-! ## Claim C10 -/

/-- Unmasking two mapping pairs is two successive `str.replace` passes. -/
theorem unmark_code_blocks_pair (text p1 c1 p2 c2 : List Char) :
    unmark_code_blocks text [p1, p2] [c1, c2] =
      replaceAll (replaceAll text p1 c1) p2 c2 := rfl

/-- C10: when the same inline span literal is discovered twice, masking sends
both occurrences to the first span's placeholder (so the duplicate span's own
substitution is a no-op), and unmasking restores both occurrences, so both
duplicates appear verbatim in the final output, flanked by the token
transforms of the surrounding text.  (Surrounding text free of backticks and
underscores; the tokenizer splits the masked text faithfully around the two
placeholder tokens.) -/
theorem C10_duplicate_spans (tokenize : List Char → List Token)
    (A ct B C : List Char) (tl : List Token) (w1 : List Char) (e1 : String)
    (tm : List Token) (w2 : List Char) (e2 : String) (tr : List Token)
    (hA : ∀ c ∈ A, c ≠ tick ∧ c ≠ '_')
    (hB : ∀ c ∈ B, c ≠ tick ∧ c ≠ '_')
    (hC : ∀ c ∈ C, c ≠ tick ∧ c ≠ '_')
    (hct : ∀ c ∈ ct, c ≠ '_')
    (hfind : findAll (A ++ (tick :: ct) ++ B ++ (tick :: ct) ++ C)
        = [tick :: ct, tick :: ct])
    (htok : tokenize (A ++ placeholderFor 0 ++ B ++ placeholderFor 0 ++ C) =
      tl ++ ⟨placeholderFor 0, w1, e1⟩ :: (tm ++ ⟨placeholderFor 0, w2, e2⟩ :: tr))
    (htl : joinWs tl = A) (htm : w1 ++ joinWs tm = B) (htrr : w2 ++ joinWs tr = C) :
    (mark_code_blocks (A ++ (tick :: ct) ++ B ++ (tick :: ct) ++ C)).1 =
        A ++ placeholderFor 0 ++ B ++ placeholderFor 0 ++ C ∧
      lowher tokenize (A ++ (tick :: ct) ++ B ++ (tick :: ct) ++ C) =
        process_text tl ++ (tick :: ct) ++ (w1 ++ process_text tm) ++ (tick :: ct) ++
          (w2 ++ process_text tr) := by
  have hwB : ∀ c ∈ w1, c ∈ B := fun c hc => htm ▸ List.mem_append_left _ hc
  have htmB : ∀ c ∈ joinWs tm, c ∈ B := fun c hc => htm ▸ List.mem_append_right _ hc
  have hwC : ∀ c ∈ w2, c ∈ C := fun c hc => htrr ▸ List.mem_append_left _ hc
  have htrC : ∀ c ∈ joinWs tr, c ∈ C := fun c hc => htrr ▸ List.mem_append_right _ hc
  have hnotlow : ¬ (97 ≤ ('_' : Char).toNat ∧ ('_' : Char).toNat ≤ 122) := by decide
  have hP : ∀ c ∈ process_text tl, c ≠ '_' :=
    process_text_keeps_out hnotlow (fun c hc => (hA c (htl ▸ hc)).2)
  have hM : ∀ c ∈ w1 ++ process_text tm, c ≠ '_' := by
    intro c hc
    rcases List.mem_append.1 hc with h | h
    · exact (hB c (hwB c h)).2
    · exact process_text_keeps_out hnotlow (fun d hd => (hB d (htmB d hd)).2) c h
  have hT : ∀ c ∈ w2 ++ process_text tr, c ≠ '_' := by
    intro c hc
    rcases List.mem_append.1 hc with h | h
    · exact (hC c (hwC c h)).2
    · exact process_text_keeps_out hnotlow (fun d hd => (hC d (htrC d hd)).2) c h
  have hph : ∀ c ∈ placeholderFor 0, c ≠ tick := by decide
  have hmask : maskSteps (A ++ (tick :: ct) ++ B ++ (tick :: ct) ++ C)
      [(placeholderFor 0, tick :: ct), (placeholderFor 1, tick :: ct)] =
      A ++ placeholderFor 0 ++ B ++ placeholderFor 0 ++ C := by
    have hnotick : ∀ c ∈ A ++ placeholderFor 0 ++ B ++ placeholderFor 0 ++ C, c ≠ tick := by
      intro c hc
      simp only [List.mem_append] at hc
      rcases hc with (((h | h) | h) | h) | h
      · exact (hA c h).1
      · exact hph c h
      · exact (hB c h).1
      · exact hph c h
      · exact (hC c h).1
    rw [maskSteps,
      replaceAll_two_slots (fun c hc => (hA c hc).1) (fun c hc => (hB c hc).1)
        (fun c hc => (hC c hc).1),
      maskSteps, replaceAll_no_occur hnotick, maskSteps]
  have hmark1 : (mark_code_blocks (A ++ (tick :: ct) ++ B ++ (tick :: ct) ++ C)).1 =
      A ++ placeholderFor 0 ++ B ++ placeholderFor 0 ++ C := by
    rw [mark_code_blocks_eq, hfind]
    exact hmask
  refine ⟨hmark1, ?_⟩
  rw [lowher_eq, mark_code_blocks_eq, hfind]
  show unmark_code_blocks (process_text (tokenize (maskSteps _
    [(placeholderFor 0, _), (placeholderFor 1, _)])))
    [placeholderFor 0, placeholderFor 1] [_, _] = _
  have hk1 : keepToken ⟨placeholderFor 0, w1, e1⟩ = true := by
    rw [keepToken]
    show (_ || pyIsUpper (placeholderFor 0)) = true
    rw [pyIsUpper_placeholderFor 0, Bool.or_true]
  have hk2 : keepToken ⟨placeholderFor 0, w2, e2⟩ = true := by
    rw [keepToken]
    show (_ || pyIsUpper (placeholderFor 0)) = true
    rw [pyIsUpper_placeholderFor 0, Bool.or_true]
  rw [hmask, htok, process_text_append, process_text_keep_cons hk1,
    process_text_append, process_text_keep_cons hk2, unmark_code_blocks_pair]
  have hshape : process_text tl ++
      (placeholderFor 0 ++ (w1 ++ (process_text tm ++
        (placeholderFor 0 ++ (w2 ++ process_text tr))))) =
      process_text tl ++ ('_' :: "_CODE_BLOCK_0__".toList) ++ (w1 ++ process_text tm) ++
        ('_' :: "_CODE_BLOCK_0__".toList) ++ (w2 ++ process_text tr) := by
    rw [show placeholderFor 0 = '_' :: "_CODE_BLOCK_0__".toList from by decide]
    simp [List.append_assoc]
  rw [hshape, show placeholderFor 0 = '_' :: "_CODE_BLOCK_0__".toList from by decide,
    replaceAll_two_slots hP hM hT]
  have hres : ∀ c ∈ process_text tl ++ (tick :: ct) ++ (w1 ++ process_text tm) ++
      (tick :: ct) ++ (w2 ++ process_text tr), c ≠ '_' := by
    intro c hc
    simp only [List.mem_append] at hc
    rcases hc with (((h | h) | h) | h) | h
    · exact hP c h
    · rcases List.mem_cons.1 h with h' | h'
      · exact fun e => absurd (h' ▸ e) (by decide : tick ≠ '_')
      · exact hct c h'
    · exact hM c (List.mem_append.2 h)
    · rcases List.mem_cons.1 h with h' | h'
      · exact fun e => absurd (h' ▸ e) (by decide : tick ≠ '_')
      · exact hct c h'
    · exact hT c (List.mem_append.2 h)
  rw [show placeholderFor 1 = '_' :: "_CODE_BLOCK_1__".toList from by decide,
    replaceAll_no_occur hres]

theorem C10_duplicate_spans_witness :
    findAll ("".toList ++ (tick :: "a`".toList) ++ " x ".toList ++
          (tick :: "a`".toList) ++ " Yy".toList) =
        [tick :: "a`".toList, tick :: "a`".toList] ∧
      lowher (constTok [⟨placeholderFor 0, " ".toList, ""⟩, ⟨"x".toList, " ".toList, ""⟩,
          ⟨placeholderFor 0, " ".toList, ""⟩, ⟨"Yy".toList, [], ""⟩])
          ("".toList ++ (tick :: "a`".toList) ++ " x ".toList ++
            (tick :: "a`".toList) ++ " Yy".toList) =
        "`a` x `a` yy".toList := by
  refine ⟨by decide, ?_⟩
  have h := C10_duplicate_spans
    (constTok [⟨placeholderFor 0, " ".toList, ""⟩, ⟨"x".toList, " ".toList, ""⟩,
      ⟨placeholderFor 0, " ".toList, ""⟩, ⟨"Yy".toList, [], ""⟩])
    "".toList "a`".toList " x ".toList " Yy".toList
    [] " ".toList "" [⟨"x".toList, " ".toList, ""⟩] " ".toList "" [⟨"Yy".toList, [], ""⟩]
    (by decide) (by decide) (by decide) (by decide) (by decide) rfl
    (by decide) (by decide) (by decide)
  rw [h.2]
  decide

/-! ## Claim C8 -/

theorem wsChar_props {c : Char} (h : wsChar c = true) :
    asciiUpper c = false ∧ c ≠ tick := by
  have hc : c = ' ' ∨ c = '\t' ∨ c = '\r' ∨ c = '\n' := by
    simpa [wsChar, or_assoc] using h
  rcases hc with rfl | rfl | rfl | rfl <;> exact ⟨by decide, by decide⟩

/-- With no protected token, every output character is the lowercase image of
an input character or a whitespace character copied from some token's trailing
whitespace. -/
theorem process_text_unprot_chars {toks : List Token}
    (hprot : ∀ t ∈ toks, keepToken t = false)
    (hws : ∀ t ∈ toks, ∀ c ∈ t.ws, wsChar c = true) :
    ∀ c ∈ process_text toks,
      (∃ c' ∈ joinWs toks, c = lowerChar c') ∨ wsChar c = true := by
  induction toks with
  | nil => simp [process_text]
  | cons t ts ih =>
    intro c hc
    have hk : keepToken t = false := hprot t (List.mem_cons_self t ts)
    rw [process_text, hk] at hc
    simp only [Bool.false_eq_true, if_false, List.mem_append] at hc
    rcases hc with (h | h) | h
    · rcases List.mem_map.1 h with ⟨c', hc', e⟩
      exact Or.inl ⟨c', by rw [joinWs]; simp [hc'], e.symm⟩
    · exact Or.inr (hws t (List.mem_cons_self t ts) c h)
    · rcases ih (fun u hu => hprot u (List.mem_cons_of_mem t hu))
        (fun u hu => hws u (List.mem_cons_of_mem t hu)) c h with ⟨c', hc', e⟩ | hw
      · exact Or.inl ⟨c', by rw [joinWs]; simp [hc'], e⟩
      · exact Or.inr hw

theorem pyLower_eq_self {cs : List Char}
    (h : ∀ c ∈ cs, asciiUpper c = false) : pyLower cs = cs := by
  induction cs with
  | nil => rfl
  | cons c cs ih =>
    rw [pyLower, List.map_cons, lowerChar_eq_self (h c (List.mem_cons_self c cs))]
    rw [show List.map lowerChar cs = pyLower cs from rfl,
      ih (fun d hd => h d (List.mem_cons_of_mem c hd))]

/-- On text with no ASCII uppercase characters, the token transformer is the
identity. -/
theorem process_text_fix {toks : List Token}
    (h : ∀ c ∈ joinWs toks, asciiUpper c = false) : process_text toks = joinWs toks := by
  induction toks with
  | nil => rfl
  | cons t ts ih =>
    have hts : process_text ts = joinWs ts :=
      ih (fun c hc => h c (by rw [joinWs]; simp [hc]))
    rw [process_text, joinWs]
    cases hk : keepToken t with
    | true => rw [hts]; simp [List.append_assoc]
    | false =>
      rw [hts, pyLower_eq_self (fun c hc => h c (by rw [joinWs]; simp [hc]))]
      simp [List.append_assoc]

/-- On a text with no code span, the transform is just the token pass. -/
theorem lowher_no_span (tokenize : List Char → List Token) {y : List Char}
    (hy : tick ∉ y) : lowher tokenize y = process_text (tokenize y) := by
  rw [lowher_eq, mark_code_blocks_eq, findAll_of_no_tick hy]
  rfl

/-- C8: on an input with no code spans (no backtick), no protected-entity
token and no fully-uppercase token — for any faithful tokenizer whose
trailing-whitespace fields are whitespace — the transform is idempotent:
`lowher (lowher x) = lowher x`.  The first pass lowercases everything, the
second pass finds only caseless text (whatever entity tags the tokenizer
assigns the second time, protected tokens are kept verbatim and unprotected
ones are lowercased, and both are the identity on lowercase text). -/
theorem C8_idempotent (tokenize : List Char → List Token) (x : List Char)
    (hf : Faithful tokenize) (hws : WsOk tokenize) (hx : tick ∉ x)
    (hprot : ∀ t ∈ tokenize x, keepToken t = false) :
    lowher tokenize (lowher tokenize x) = lowher tokenize x := by
  have hx1 : ∀ c ∈ x, c ≠ tick := fun c hc e => hx (e ▸ hc)
  have hychars : ∀ c ∈ process_text (tokenize x), asciiUpper c = false ∧ c ≠ tick := by
    intro c hc
    rcases process_text_unprot_chars hprot (fun t ht => hws x t ht) c hc with
      ⟨c', hc', e⟩ | hwsc
    · have hcx : c' ∈ x := hf x ▸ hc'
      constructor
      · exact e ▸ asciiUpper_lowerChar c'
      · intro et
        exact hx1 c' hcx
          (lowerChar_eq_of_not_low (by decide) ((e ▸ et : lowerChar c' = tick)))
    · exact wsChar_props hwsc
  have hyt : tick ∉ process_text (tokenize x) := fun hm => (hychars tick hm).2 rfl
  rw [lowher_no_span tokenize hx, lowher_no_span tokenize hyt]
  rw [process_text_fix (fun c hc => (hychars c (by rw [hf] at hc; exact hc)).1), hf _]

theorem C8_idempotent_witness :
    tick ∉ "Hello There".toList ∧
      lowher wholeTok (lowher wholeTok "Hello There".toList) =
        lowher wholeTok "Hello There".toList := by
  have hf : Faithful wholeTok := by
    intro cs
    cases cs with
    | nil => rfl
    | cons c l => simp [wholeTok, joinWs]
  have hws : WsOk wholeTok := by
    intro cs t ht c hc
    cases cs with
    | nil => simp [wholeTok] at ht
    | cons a l =>
      simp only [wholeTok, List.mem_singleton] at ht
      subst ht
      simp at hc
  refine ⟨by decide, ?_⟩
  exact C8_idempotent wholeTok "Hello There".toList hf hws (by decide)
    (by
      intro t ht
      have he : wholeTok "Hello There".toList = [⟨"Hello There".toList, [], ""⟩] := rfl
      rw [he, List.mem_singleton] at ht
      subst ht
      decide)

end Lowher
